import Mathlib

/-!
Verification of the SGE job-management core of `find_differential_primers`
(`diagnostic_primers/sge_jobs.py`).

The Python classes `Job` and `JobGroup` are embedded as Lean structures with
explicit state passing; Python object references (used for dependency lists)
are modelled as natural-number ids.  The generated SGE control script of
`JobGroup.generate_script` is embedded as a `String` built exactly as the
source builds it, and the mixed-radix task-index decoding that the script
performs at run time is embedded as the function `decodeTask`.  The polling
loop of `wait` is embedded as a fuel-bounded event trace over an oracle that
supplies the return codes of the successive `qstat -j <name>` queries.
The `DependencyGraph.validate` operation is not present in the source tree
and is modelled from the specification.
-/

/-- Embeds the `Job` object state (`sge_jobs.py`, `Job.__init__`):
`name`, `queue`, `command`, `script`, `scriptPath`, `dependencies`
(a Python list of object references, modelled as ids) and `submitted`. -/
structure Job where
  name : String
  queue : Option String
  command : String
  script : String
  scriptPath : Option String
  dependencies : List Nat
  submitted : Bool
deriving DecidableEq

/-- Embeds `Job.__init__` (lines 85-98): `script` is initialised to the
command, `scriptPath` to `None`, `dependencies` to `[]`, `submitted` to
`False`. -/
def Job.init (name command : String) (queue : Option String) : Job :=
  { name := name, queue := queue, command := command, script := command,
    scriptPath := none, dependencies := [], submitted := false }

/-- Embeds `Job.add_dependency` (lines 100-106): `self.dependencies.append(job)`.
The passed job is identified by its reference `ref`. -/
def Job.add_dependency (j : Job) (ref : Nat) : Job :=
  { j with dependencies := j.dependencies ++ [ref] }

/-- Embeds CPython `list.remove`: scan for the first element equal to `r` and
drop it; `none` models the `ValueError` raised when no element matches
(in which case the list is not touched). -/
def removeFirst (l : List Nat) (r : Nat) : Option (List Nat) :=
  match l with
  | [] => none
  | x :: xs => if x = r then some xs else (removeFirst xs r).map (fun t => x :: t)

/-- Embeds `Job.remove_dependency` (lines 108-113):
`self.dependencies.remove(job)`.  `Except.error ()` models the propagated
`ValueError` (the state is unchanged in that case, since the exception is
raised before any mutation). -/
def Job.remove_dependency (j : Job) (ref : Nat) : Except Unit Job :=
  match removeFirst j.dependencies ref with
  | none => Except.error ()
  | some l => Except.ok { j with dependencies := l }

/-- Embeds the `JobGroup` object state (`sge_jobs.py`, `JobGroup.__init__`):
as `Job` but with the `arguments` mapping (a Python dict from parameter name
to list of string values; insertion-ordered, modelled as an association
list) and the derived fields `script` and `tasks` set by `generate_script`. -/
structure JobGroup where
  name : String
  queue : Option String
  command : String
  dependencies : List Nat
  submitted : Bool
  arguments : List (String × List String)
  script : String
  tasks : Nat
deriving DecidableEq

/-- Embeds `JobGroup.generate_script` (lines 162-197).  The script string is
assembled exactly as in the source: the zero-basing line, one `_ARRAY=( ... )`
line per argument (accumulating `total *= len(values)` in the same loop), a
blank line, the three decode lines per argument, a blank line, the command and
a final newline.  `tasks` is set to the accumulated total. -/
def JobGroup.generate_script (g : JobGroup) : JobGroup :=
  let base := "let \"TASK_ID=$SGE_TASK_ID - 1\"\n"
  let arr := g.arguments.foldl
    (fun (acc : String × Nat) p =>
      (acc.1 ++ (p.1 ++ "_ARRAY=( " ++ p.2.foldl (fun l v => l ++ v ++ " ") "" ++ " )\n"),
       acc.2 * p.2.length))
    (base, 1)
  let s1 := arr.1 ++ "\n"
  let s2 := g.arguments.foldl
    (fun s p =>
      s ++ "let \"" ++ p.1 ++ "_INDEX=$TASK_ID % " ++ toString p.2.length ++ "\"\n"
        ++ p.1 ++ "=$\x7b" ++ p.1 ++ "_ARRAY[$" ++ p.1 ++ "_INDEX]\x7d\n"
        ++ "let \"TASK_ID=$TASK_ID / " ++ toString p.2.length ++ "\"\n")
    s1
  { g with script := s2 ++ "\n" ++ g.command ++ "\n", tasks := arr.2 }

/-- Embeds `JobGroup.__init__` (lines 131-160): `dependencies = []`,
`submitted = True` (as written in the source on line 155), `arguments`
defaulting to the empty dict when `None` is passed, then `generate_script()`
is called (which creates the `script` and `tasks` attributes; the
placeholders given here are overwritten by it). -/
def JobGroup.init (name command : String) (queue : Option String)
    (arguments : Option (List (String × List String))) : JobGroup :=
  JobGroup.generate_script
    { name := name, queue := queue, command := command, dependencies := [],
      submitted := true, arguments := arguments.getD [], script := "", tasks := 0 }

/-- Embeds `JobGroup.add_dependency` (lines 199-205). -/
def JobGroup.add_dependency (g : JobGroup) (ref : Nat) : JobGroup :=
  { g with dependencies := g.dependencies ++ [ref] }

/-- Embeds `JobGroup.remove_dependency` (lines 207-212). -/
def JobGroup.remove_dependency (g : JobGroup) (ref : Nat) : Except Unit JobGroup :=
  match removeFirst g.dependencies ref with
  | none => Except.error ()
  | some l => Except.ok { g with dependencies := l }

/-- The radix list of an arguments mapping: the lengths of the value lists,
in argument order (spec side, for stating the `tasks` invariant). -/
def radices (args : List (String × List String)) : List Nat :=
  args.map (fun p => p.2.length)

/-- Product of the lengths of all argument value-sequences (spec side). -/
def argProduct (args : List (String × List String)) : Nat :=
  (radices args).prod

/-- Embeds the task-index decoding performed at run time by the script that
`generate_script` emits: starting from the zero-based `$TASK_ID`, each
argument in order takes the value at position `TASK_ID % count` of its value
array and then `TASK_ID` is integer-divided by `count` (first argument least
significant). -/
def decodeTask (args : List (String × List String)) (t : Nat) : List (String × String) :=
  match args with
  | [] => []
  | p :: rest => (p.1, p.2.getD (t % p.2.length) "") :: decodeTask rest (t / p.2.length)

/-- Abstract mixed-radix digit decoding (the index part of `decodeTask`). -/
def decodeDigits : List Nat → Nat → List Nat
  | [], _ => []
  | r :: rs, t => t % r :: decodeDigits rs (t / r)

/-- Mixed-radix re-encoding, the inverse of `decodeDigits` (spec side,
used to state that the decoding is a bijection). -/
def encodeDigits : List Nat → List Nat → Nat
  | _, [] => 0
  | [], _ :: _ => 0
  | r :: rs, d :: ds => d + r * encodeDigits rs ds

/-- A digit list is valid for a radix list when it has the same length and
each digit is below its radix. -/
def ValidDigits (rs ds : List Nat) : Prop :=
  List.Forall₂ (fun r d => d < r) rs ds

/-- Observable events of the `wait` polling loop: sleeping for a duration, or
issuing one `qstat -j <name>` query and observing its return code. -/
inductive WaitEvent where
  | sleep (duration : ℚ)
  | query (returncode : Nat)
deriving DecidableEq

/-- Embeds the module constant `SGE_WAIT = 0.01` (the default initial polling
interval, in seconds). -/
def SGE_WAIT : ℚ := 1 / 100

/-- Embeds the body of `Job.wait` / `JobGroup.wait` (lines 115-124 and
214-223) as a fuel-bounded event trace.  Each loop iteration first sleeps for
the current interval, then doubles the interval capping it at 60, then runs
`qstat -j <name>`; the loop continues exactly when the observed return code
is `0` (Python truthiness of `finished = result.returncode`).  `rc k` is the
return code of the `k`-th query; `fuel` bounds how many iterations of the
(potentially unbounded) loop are unrolled. -/
def waitIter (rc : Nat → Nat) : Nat → Nat → ℚ → List WaitEvent
  | 0, _, _ => []
  | fuel + 1, k, interval =>
    WaitEvent.sleep interval :: WaitEvent.query (rc k) ::
      (if rc k = 0 then waitIter rc fuel (k + 1) (min (2 * interval) 60) else [])

/-- The sleep durations of a wait trace, in order. -/
def sleepDurations (l : List WaitEvent) : List ℚ :=
  l.filterMap (fun e => match e with
    | WaitEvent.sleep d => some d
    | WaitEvent.query _ => none)

/-- Modelled from the spec: the repository has no `DependencyGraph` class in
the source tree (section 4.2 of the specification describes it); a dependency
graph is the set of registered nodes with their dependency lists, modelled as
an association list from node id to the ids of its dependencies. -/
abbrev DepGraph := List (Nat × List Nat)

/-- The registered node ids of a dependency graph. -/
def depKeys (g : DepGraph) : List Nat := g.map Prod.fst

/-- `Edge g a b`: node `a` depends on node `b`. -/
def Edge (g : DepGraph) (a b : Nat) : Prop :=
  ∃ ds, (a, ds) ∈ g ∧ b ∈ ds

/-- Dependency reachability in one or more steps. -/
inductive Reaches (g : DepGraph) : Nat → Nat → Prop
  | single {a b : Nat} : Edge g a b → Reaches g a b
  | cons {a b c : Nat} : Edge g a b → Reaches g b c → Reaches g a c

/-- A graph has a cycle when some node reaches itself. -/
def HasCycle (g : DepGraph) : Prop := ∃ n, Reaches g n n

/-- Well-formedness: every dependency of a registered node is itself a
registered node (the graph holds all nodes of the run). -/
def Closed (g : DepGraph) : Prop :=
  ∀ p ∈ g, ∀ d ∈ p.2, d ∈ depKeys g

/-- Modelled from the spec: a node is ready when all of its dependencies are
already tiered (section 4.2, "repeatedly extracting the subset of
not-yet-tiered nodes whose dependencies are already tiered"). -/
def ready (done : List Nat) (p : Nat × List Nat) : Bool :=
  p.2.all (fun d => done.contains d)

/-- Modelled from the spec: one step of the cycle-reporting walk taken when
the extraction gets stuck — from node `n`, move to the first dependency of
`n` that is not yet tiered (such a dependency exists for every stuck node). -/
def stepNext (done : List Nat) (rem : DepGraph) (n : Nat) : Nat :=
  match rem.find? (fun p => p.1 == n) with
  | some p => (p.2.find? (fun d => !done.contains d)).getD n
  | none => n

/-- Modelled from the spec: the node reported by the `CycleError` — follow
untiered dependencies from the first stuck node for as many steps as there
are stuck nodes, which necessarily lands on a node of a cycle. -/
def cycleWitness (done : List Nat) (rem : DepGraph) : Nat :=
  (stepNext done rem)^[rem.length] (match rem with | [] => 0 | p :: _ => p.1)

/-- Modelled from the spec: the tier-extraction loop of
`DependencyGraph.validate` / `tier` (section 4.2, Kahn-style): repeatedly
extract every not-yet-tiered node all of whose dependencies are tiered; if no
node can be extracted while some remain, fail with a `CycleError` naming a
node on a cycle.  `fuel` bounds the rounds; `validate` supplies enough. -/
def kahnAux (done : List Nat) : Nat → DepGraph → Except Nat (List (List Nat))
  | 0, rem => if rem.isEmpty then Except.ok [] else Except.error (cycleWitness done rem)
  | fuel + 1, rem =>
    if rem.isEmpty then Except.ok []
    else if (rem.filter (ready done)).isEmpty then Except.error (cycleWitness done rem)
    else
      match kahnAux (done ++ (rem.filter (ready done)).map Prod.fst) fuel
          (rem.filter (fun p => !ready done p)) with
      | Except.ok tiers => Except.ok ((rem.filter (ready done)).map Prod.fst :: tiers)
      | Except.error n => Except.error n

/-- Modelled from the spec: `DependencyGraph.validate` — topological check
returning the tiering on success and `CycleError` (with the reported node id)
on failure. -/
def validate (g : DepGraph) : Except Nat (List (List Nat)) :=
  kahnAux [] g.length g

/-! ## Helper lemmas -/

theorem fold_arrays_snd (args : List (String × List String)) :
    ∀ (s : String) (n : Nat),
      (args.foldl
        (fun (acc : String × Nat) p =>
          (acc.1 ++ (p.1 ++ "_ARRAY=( " ++ p.2.foldl (fun l v => l ++ v ++ " ") "" ++ " )\n"),
           acc.2 * p.2.length))
        (s, n)).2 = n * argProduct args := by
  induction args with
  | nil => intro s n; simp [argProduct, radices]
  | cons p rest ih =>
    intro s n
    simp only [List.foldl_cons]
    rw [ih]
    simp [argProduct, radices, Nat.mul_assoc]

theorem generate_script_tasks (g : JobGroup) :
    (JobGroup.generate_script g).tasks = argProduct g.arguments := by
  simp only [JobGroup.generate_script]
  rw [fold_arrays_snd]
  exact Nat.one_mul _

theorem argProduct_pos (args : List (String × List String))
    (hne : ∀ p ∈ args, p.2 ≠ []) : 0 < argProduct args := by
  induction args with
  | nil => simp [argProduct, radices]
  | cons p rest ih =>
    have hp : 0 < p.2.length :=
      List.length_pos.mpr (hne p (List.mem_cons_self p rest))
    have hr : 0 < argProduct rest := ih (fun q hq => hne q (List.mem_cons_of_mem p hq))
    simpa [argProduct, radices] using Nat.mul_pos hp hr

theorem removeFirst_eq_none {l : List Nat} {r : Nat} :
    removeFirst l r = none ↔ r ∉ l := by
  induction l with
  | nil => simp [removeFirst]
  | cons x xs ih =>
    by_cases hx : x = r
    · subst hx
      simp [removeFirst]
    · simp [removeFirst, hx, ih, Ne.symm hx]

theorem removeFirst_of_mem {l : List Nat} {r : Nat} (h : r ∈ l) :
    removeFirst l r = some (l.erase r) := by
  induction l with
  | nil => cases h
  | cons x xs ih =>
    by_cases hx : x = r
    · subst hx
      simp [removeFirst, List.erase_cons]
    · have hr : r ∈ xs := by
        rcases List.mem_cons.mp h with h1 | h1
        · exact absurd h1.symm hx
        · exact h1
      have hbeq : (x == r) = false := beq_false_of_ne hx
      simp [removeFirst, hx, ih hr, List.erase_cons, hbeq]

/-! ## Claims -/

/-- Claim C2 (amended): after `JobGroup` construction and after every
`generate_script` call, `tasks` equals the product of the lengths of all
argument value-sequences; an empty arguments mapping yields `tasks == 1`;
and `tasks ≥ 1` holds provided every value-sequence is non-empty. -/
theorem c2_tasks_invariant (g : JobGroup) (nm cmd : String) (q : Option String)
    (args : List (String × List String)) (hne : ∀ p ∈ args, p.2 ≠ []) :
    (JobGroup.generate_script g).tasks = argProduct g.arguments ∧
    (JobGroup.init nm cmd q (some args)).tasks = argProduct args ∧
    (JobGroup.init nm cmd q none).tasks = 1 ∧
    1 ≤ (JobGroup.init nm cmd q (some args)).tasks := by
  refine ⟨generate_script_tasks g, ?_, ?_, ?_⟩
  · rw [JobGroup.init, generate_script_tasks]
    rfl
  · rw [JobGroup.init, generate_script_tasks]
    rfl
  · rw [JobGroup.init, generate_script_tasks]
    exact argProduct_pos args hne

/-- Witness for C2 at the worked example of the specification. -/
theorem c2_tasks_invariant_witness :
    (JobGroup.init "sweep" "cmd" none
      (some [("foo", ["1", "2"]), ("bar", ["a", "b", "c"])])).tasks =
      argProduct [("foo", ["1", "2"]), ("bar", ["a", "b", "c"])] :=
  (c2_tasks_invariant (JobGroup.init "x" "y" none none) "sweep" "cmd" none
    [("foo", ["1", "2"]), ("bar", ["a", "b", "c"])] (by decide)).2.1

/-- Counterexample to C2 as stated: an argument with an empty value-sequence
makes the product — and hence `tasks` — zero, violating `tasks ≥ 1`. -/
theorem c2_tasks_counterexample :
    (JobGroup.init "g" "c" none (some [("foo", ([] : List String))])).tasks = 0 := rfl

/-- Claim C3: the code bug — `Job.__init__` sets `submitted` to `False`, but
`JobGroup.__init__` (line 155) sets `submitted` to `True` immediately at
construction, before any executor has been handed the node. -/
theorem c3_submitted_after_init :
    (Job.init "j1" "cmd" none).submitted = false ∧
    (JobGroup.init "g1" "cmd" none none).submitted = true :=
  ⟨rfl, rfl⟩

/-- Claim C6 (amended): `add_dependency` appends the passed reference to the
dependency list with no validation whatsoever — in particular a node's own
reference is appended just like any other, and no `CycleError` exists. -/
theorem c6_add_dependency_appends (j : Job) (g : JobGroup) (r : Nat) :
    (Job.add_dependency j r).dependencies = j.dependencies ++ [r] ∧
    (JobGroup.add_dependency g r).dependencies = g.dependencies ++ [r] :=
  ⟨rfl, rfl⟩

/-- Counterexample to C6 as stated: a job (reference 0) passed as its own
dependency is appended successfully; no `CycleError` is raised (the source
has no failure path at all in `add_dependency`). -/
theorem c6_self_dependency_counterexample :
    (Job.add_dependency (Job.init "n" "c" none) 0).dependencies = [0] := rfl

/-- Claim C7: `remove_dependency` on a reference that is not a current
dependency fails (the propagated `ValueError`, the specification's
`NotFoundError`) and — the exception being raised before any mutation —
leaves the dependency list exactly as it was; on a current dependency it
removes the first occurrence. -/
theorem c7_remove_dependency (j : Job) (g : JobGroup) (r : Nat) :
    (r ∉ j.dependencies → Job.remove_dependency j r = Except.error ()) ∧
    (r ∈ j.dependencies →
      Job.remove_dependency j r =
        Except.ok { j with dependencies := j.dependencies.erase r }) ∧
    (r ∉ g.dependencies → JobGroup.remove_dependency g r = Except.error ()) ∧
    (r ∈ g.dependencies →
      JobGroup.remove_dependency g r =
        Except.ok { g with dependencies := g.dependencies.erase r }) := by
  refine ⟨fun h => ?_, fun h => ?_, fun h => ?_, fun h => ?_⟩
  · rw [Job.remove_dependency, removeFirst_eq_none.mpr h]
  · rw [Job.remove_dependency, removeFirst_of_mem h]
  · rw [JobGroup.remove_dependency, removeFirst_eq_none.mpr h]
  · rw [JobGroup.remove_dependency, removeFirst_of_mem h]

/-- Witness for C7: on a job whose dependency list is `[3]`, removing `5`
fails and removing `3` succeeds. -/
theorem c7_remove_dependency_witness :
    Job.remove_dependency (Job.add_dependency (Job.init "j" "c" none) 3) 5 =
      Except.error () ∧
    Job.remove_dependency (Job.add_dependency (Job.init "j" "c" none) 3) 3 =
      Except.ok { Job.add_dependency (Job.init "j" "c" none) 3 with
                    dependencies := [] } := by
  constructor
  · exact (c7_remove_dependency (Job.add_dependency (Job.init "j" "c" none) 3)
      (JobGroup.init "g" "c" none none) 5).1 (by decide)
  · exact (c7_remove_dependency (Job.add_dependency (Job.init "j" "c" none) 3)
      (JobGroup.init "g" "c" none none) 3).2.1 (by decide)

/-- Claim C8: `generate_script` is deterministic and idempotent — applied a
second time to a group whose `arguments`, `command` and `name` are unchanged
(it only ever rewrites `script` and `tasks`, recomputing them from scratch),
it reproduces the identical script text and task count. -/
theorem c8_generate_script_idempotent (g : JobGroup) :
    JobGroup.generate_script (JobGroup.generate_script g) =
      JobGroup.generate_script g ∧
    (JobGroup.generate_script (JobGroup.generate_script g)).script =
      (JobGroup.generate_script g).script ∧
    (JobGroup.generate_script (JobGroup.generate_script g)).tasks =
      (JobGroup.generate_script g).tasks :=
  ⟨rfl, rfl, rfl⟩

/-- Claim C10: every `wait` call sleeps for the full initial interval before
the first status query is issued; in particular even when the very first
query reports the job gone (non-zero return code), the caller was blocked for
the initial interval first. -/
theorem c10_sleep_before_first_query (rc : Nat → Nat) (fuel k : Nat) (i : ℚ) :
    (waitIter rc (fuel + 1) k i).take 2 =
      [WaitEvent.sleep i, WaitEvent.query (rc k)] ∧
    (rc k ≠ 0 →
      waitIter rc (fuel + 1) k i = [WaitEvent.sleep i, WaitEvent.query (rc k)]) := by
  constructor
  · rw [waitIter]
    rfl
  · intro h
    rw [waitIter, if_neg h]

/-- Witness for C10: a job absent from the queue at the very first query
(return code 1) still costs one full initial sleep of `SGE_WAIT`. -/
theorem c10_sleep_before_first_query_witness :
    waitIter (fun _ => 1) 1 0 SGE_WAIT =
      [WaitEvent.sleep SGE_WAIT, WaitEvent.query 1] :=
  (c10_sleep_before_first_query (fun _ => 1) 0 0 SGE_WAIT).2 (by decide)

theorem sleepDurations_waitIter_succ (rc : Nat → Nat) (fuel k : Nat) (i : ℚ) :
    sleepDurations (waitIter rc (fuel + 1) k i) =
      i :: (if rc k = 0 then
              sleepDurations (waitIter rc fuel (k + 1) (min (2 * i) 60))
            else []) := by
  by_cases h : rc k = 0 <;> simp [waitIter, sleepDurations, h]

/-- Claim C4 (amended): provided the initial polling interval does not exceed
the 60-second ceiling (the default `SGE_WAIT = 0.01` does not), the interval
slept at iteration `n` of `wait` equals `min (2 ^ n * initial) 60`: it starts
at the initial interval, doubles each iteration and is capped at 60. -/
theorem c4_backoff_intervals (rc : Nat → Nat) (fuel k : Nat) (i : ℚ) (hi : i ≤ 60)
    (n : Nat) (hn : n < (sleepDurations (waitIter rc fuel k i)).length) :
    (sleepDurations (waitIter rc fuel k i)).getD n 0 = min (2 ^ n * i) 60 := by
  induction fuel generalizing k i n with
  | zero => simp [waitIter, sleepDurations] at hn
  | succ fuel ih =>
    rw [sleepDurations_waitIter_succ] at hn ⊢
    cases n with
    | zero => rw [List.getD_cons_zero, pow_zero, one_mul, min_eq_left hi]
    | succ n =>
      rw [List.getD_cons_succ]
      rw [List.length_cons] at hn
      have hn' := Nat.lt_of_succ_lt_succ hn
      by_cases h : rc k = 0
      · rw [if_pos h] at hn' ⊢
        rw [ih (k + 1) (min (2 * i) 60) (min_le_right _ _) n hn']
        rcases le_total (2 * i) 60 with hle | hle
        · rw [min_eq_left hle]
          have h2 : (2:ℚ) ^ n * (2 * i) = 2 ^ (n + 1) * i := by ring
          rw [h2]
        · rw [min_eq_right hle]
          have h1 : (1:ℚ) ≤ 2 ^ n := one_le_pow₀ (by norm_num)
          have h2 : (60:ℚ) ≤ 2 ^ n * 60 := by nlinarith
          have h0 : (0:ℚ) ≤ 2 * i := by linarith
          have h3 : (60:ℚ) ≤ 2 ^ (n + 1) * i := by
            calc (60:ℚ) ≤ 2 * i := hle
              _ = 1 * (2 * i) := by ring
              _ ≤ 2 ^ n * (2 * i) := mul_le_mul_of_nonneg_right h1 h0
              _ = 2 ^ (n + 1) * i := by ring
          rw [min_eq_right h2, min_eq_right h3]
      · rw [if_neg h] at hn'
        simp at hn'

/-- Witness for C4 (amended): starting from interval 1 with the job still in
the queue, the third sleep lasts `min (2 ^ 2 * 1) 60 = 4` seconds. -/
theorem c4_backoff_intervals_witness :
    (sleepDurations (waitIter (fun _ => 0) 3 0 1)).getD 2 0 = min (2 ^ 2 * 1) 60 :=
  c4_backoff_intervals (fun _ => 0) 3 0 1 (by norm_num) 2
    (by simp [waitIter, sleepDurations])

/-- Counterexample to C4 as stated: with an initial interval of 100 the very
first iteration sleeps the full 100 seconds, which exceeds the 60-second
ceiling and differs from the claimed `min (2 ^ 0 * 100) 60 = 60`. -/
theorem c4_backoff_counterexample :
    (sleepDurations (waitIter (fun _ => 0) 1 0 100)).getD 0 0 = 100 ∧
    ((100 : ℚ) ≠ min (2 ^ 0 * 100) 60) :=
  ⟨rfl, by norm_num⟩

theorem waitIter_length_of_all_zero (rc : Nat → Nat) (fuel : Nat) :
    ∀ (k : Nat) (i : ℚ), (∀ j, rc (k + j) = 0) →
      (waitIter rc fuel k i).length = 2 * fuel := by
  induction fuel with
  | zero => intro k i _; rfl
  | succ fuel ih =>
    intro k i h
    have h0 : rc k = 0 := by simpa using h 0
    rw [waitIter, if_pos h0]
    have hrec := ih (k + 1) (min (2 * i) 60) (fun j => by
      have hh := h (j + 1)
      rwa [show k + (j + 1) = k + 1 + j by omega] at hh)
    simp only [List.length_cons, hrec]
    omega

theorem waitIter_stop_at_first_nonzero (rc : Nat → Nat) :
    ∀ (m fuel k : Nat) (i : ℚ), m < fuel →
      (∀ j, j < m → rc (k + j) = 0) → rc (k + m) ≠ 0 →
      (waitIter rc fuel k i).length = 2 * (m + 1) ∧
      (waitIter rc fuel k i).getLast? = some (WaitEvent.query (rc (k + m))) := by
  intro m
  induction m with
  | zero =>
    intro fuel k i hm _ hstop
    obtain ⟨f, rfl⟩ : ∃ f, fuel = f + 1 := ⟨fuel - 1, by omega⟩
    rw [Nat.add_zero] at hstop
    rw [waitIter, if_neg hstop]
    exact ⟨rfl, rfl⟩
  | succ m ih =>
    intro fuel k i hm hzero hstop
    obtain ⟨f, rfl⟩ : ∃ f, fuel = f + 1 := ⟨fuel - 1, by omega⟩
    have h0 : rc k = 0 := by simpa using hzero 0 (Nat.succ_pos m)
    rw [waitIter, if_pos h0]
    have hrec := ih f (k + 1) (min (2 * i) 60) (by omega)
      (fun j hj => by
        have hh := hzero (j + 1) (by omega)
        rwa [show k + (j + 1) = k + 1 + j by omega] at hh)
      (by rwa [show k + 1 + m = k + (m + 1) by omega])
    have hne : waitIter rc f (k + 1) (min (2 * i) 60) ≠ [] := by
      intro hemp
      have hl := hrec.1
      rw [hemp] at hl
      simp at hl
    constructor
    · simp only [List.length_cons, hrec.1]
      omega
    · have h2 := hrec.2
      rw [show k + 1 + m = k + (m + 1) by omega] at h2
      cases hrest : waitIter rc f (k + 1) (min (2 * i) 60) with
      | nil => exact absurd hrest hne
      | cons a t =>
        rw [hrest] at h2
        rw [List.getLast?_cons_cons, List.getLast?_cons_cons]
        exact h2

/-- Claim C5 (amended): `wait` keeps polling exactly as long as the status
query returns code 0 (job still active), and returns as soon as the query
returns any non-zero code — code 1 being "job does not exist", but every
non-zero code terminates the loop, because the source assigns the raw return
code to the loop flag (`finished = result.returncode`). -/
theorem c5_wait_returns_on_nonzero (rc : Nat → Nat) (fuel k : Nat) (i : ℚ) :
    ((∀ j, rc (k + j) = 0) → (waitIter rc fuel k i).length = 2 * fuel) ∧
    (∀ m, m < fuel → (∀ j, j < m → rc (k + j) = 0) → rc (k + m) ≠ 0 →
      (waitIter rc fuel k i).length = 2 * (m + 1) ∧
      (waitIter rc fuel k i).getLast? = some (WaitEvent.query (rc (k + m)))) :=
  ⟨waitIter_length_of_all_zero rc fuel k i,
   fun m hm hz hs => waitIter_stop_at_first_nonzero rc m fuel k i hm hz hs⟩

/-- Witness for C5 (amended): with return codes 0, 0, 7, 0, ... the wait
performs exactly three sleep/query iterations and its last event is the
query that returned 7. -/
theorem c5_wait_returns_on_nonzero_witness :
    (waitIter (fun j => if j = 2 then 7 else 0) 5 0 1).length = 2 * (2 + 1) ∧
    (waitIter (fun j => if j = 2 then 7 else 0) 5 0 1).getLast? =
      some (WaitEvent.query ((fun j => if j = 2 then 7 else 0) (0 + 2))) :=
  (c5_wait_returns_on_nonzero (fun j => if j = 2 then 7 else 0) 5 0 1).2 2
    (by omega) (by decide) (by decide)

/-- Counterexample to C5 as stated: a status query returning code 2 — an
outcome that is neither "active" (0) nor the documented "job does not exist"
(1) — still terminates the wait immediately. -/
theorem c5_wait_counterexample :
    waitIter (fun _ => 2) 5 0 1 = [WaitEvent.sleep 1, WaitEvent.query 2] ∧
    (2 : Nat) ≠ 1 :=
  ⟨rfl, by decide⟩

theorem decodeTask_map_fst (args : List (String × List String)) :
    ∀ t, (decodeTask args t).map Prod.fst = args.map Prod.fst := by
  induction args with
  | nil => intro t; rfl
  | cons p rest ih => intro t; simp [decodeTask, ih]

theorem decodeTask_eq_zip (args : List (String × List String)) :
    ∀ t, decodeTask args t =
      (args.zip (decodeDigits (radices args) t)).map
        (fun q => (q.1.1, q.1.2.getD q.2 "")) := by
  induction args with
  | nil => intro t; rfl
  | cons p rest ih =>
    intro t
    simp [decodeTask, decodeDigits, radices, List.zip_cons_cons, ih]

theorem radices_pos (args : List (String × List String))
    (hne : ∀ p ∈ args, p.2 ≠ []) : ∀ r ∈ radices args, 0 < r := by
  intro r hr
  rw [radices] at hr
  rcases List.mem_map.mp hr with ⟨p, hp, rfl⟩
  exact List.length_pos.mpr (hne p hp)

theorem encodeDigits_decodeDigits (rs : List Nat) (hpos : ∀ r ∈ rs, 0 < r) :
    ∀ t, t < rs.prod → encodeDigits rs (decodeDigits rs t) = t := by
  induction rs with
  | nil =>
    intro t ht
    rw [List.prod_nil] at ht
    have : t = 0 := by omega
    rw [this]
    rfl
  | cons r rs ih =>
    intro t ht
    have hdiv : t / r < rs.prod := by
      rw [List.prod_cons] at ht
      exact Nat.div_lt_of_lt_mul ht
    simp only [decodeDigits, encodeDigits]
    rw [ih (fun x hx => hpos x (List.mem_cons_of_mem r hx)) (t / r) hdiv]
    exact Nat.mod_add_div t r

theorem decodeDigits_valid (rs : List Nat) (hpos : ∀ r ∈ rs, 0 < r) :
    ∀ t, ValidDigits rs (decodeDigits rs t) := by
  induction rs with
  | nil => intro t; exact List.Forall₂.nil
  | cons r rs ih =>
    intro t
    exact List.Forall₂.cons (Nat.mod_lt t (hpos r (List.mem_cons_self r rs)))
      (ih (fun x hx => hpos x (List.mem_cons_of_mem r hx)) (t / r))

theorem decodeDigits_encodeDigits {rs ds : List Nat} (h : ValidDigits rs ds) :
    decodeDigits rs (encodeDigits rs ds) = ds := by
  induction h with
  | nil => rfl
  | @cons r d rs ds h1 h2 ih =>
    have hr : 0 < r := Nat.lt_of_le_of_lt (Nat.zero_le d) h1
    simp only [encodeDigits, decodeDigits]
    have he1 : (d + r * encodeDigits rs ds) % r = d := by
      rw [Nat.add_mul_mod_self_left, Nat.mod_eq_of_lt h1]
    have he2 : (d + r * encodeDigits rs ds) / r = encodeDigits rs ds := by
      rw [Nat.add_mul_div_left _ _ hr, Nat.div_eq_of_lt h1, Nat.zero_add]
    rw [he1, he2, ih]

theorem encodeDigits_lt {rs ds : List Nat} (h : ValidDigits rs ds) :
    encodeDigits rs ds < rs.prod := by
  induction h with
  | nil => exact Nat.zero_lt_one
  | @cons r d rs ds h1 h2 ih =>
    simp only [encodeDigits, List.prod_cons]
    calc d + r * encodeDigits rs ds < r + r * encodeDigits rs ds := by omega
      _ = r * (encodeDigits rs ds + 1) := by ring
      _ ≤ r * rs.prod := Nat.mul_le_mul_left r (Nat.succ_le_of_lt ih)

/-- Claim C1: with non-empty value lists, task-index decoding is a bijection
between `[0, tasks)` and the mixed-radix digit space of the ordered argument
value-sequences (first argument least significant): the decode yields exactly
one value per parameter in argument order, the digit vector of every index
below the product is valid and re-encodes to the same index, every valid
digit vector is reached by exactly one index, and on the worked example
`tasks = 6`, index 0 decodes to `(foo=1, bar=a)` and index 5 to
`(foo=2, bar=c)`. -/
theorem c1_decode_bijection (args : List (String × List String))
    (hne : ∀ p ∈ args, p.2 ≠ []) :
    (∀ t, (decodeTask args t).map Prod.fst = args.map Prod.fst) ∧
    (∀ t, decodeTask args t =
      (args.zip (decodeDigits (radices args) t)).map
        (fun q => (q.1.1, q.1.2.getD q.2 ""))) ∧
    (∀ t, t < argProduct args →
      ValidDigits (radices args) (decodeDigits (radices args) t) ∧
      encodeDigits (radices args) (decodeDigits (radices args) t) = t) ∧
    (∀ ds, ValidDigits (radices args) ds →
      decodeDigits (radices args) (encodeDigits (radices args) ds) = ds ∧
      encodeDigits (radices args) ds < argProduct args) ∧
    (JobGroup.init "sweep" "cmd" none
        (some [("foo", ["1", "2"]), ("bar", ["a", "b", "c"])])).tasks = 6 ∧
    decodeTask [("foo", ["1", "2"]), ("bar", ["a", "b", "c"])] 0 =
      [("foo", "1"), ("bar", "a")] ∧
    decodeTask [("foo", ["1", "2"]), ("bar", ["a", "b", "c"])] 5 =
      [("foo", "2"), ("bar", "c")] := by
  have hpos := radices_pos args hne
  refine ⟨decodeTask_map_fst args, decodeTask_eq_zip args, ?_, ?_, rfl, rfl, rfl⟩
  · intro t ht
    exact ⟨decodeDigits_valid _ hpos t, encodeDigits_decodeDigits _ hpos t ht⟩
  · intro ds hds
    exact ⟨decodeDigits_encodeDigits hds, encodeDigits_lt hds⟩

/-- Witness for C1 at the worked example: index 5 round-trips through the
digit decoding. -/
theorem c1_decode_bijection_witness :
    encodeDigits (radices [("foo", ["1", "2"]), ("bar", ["a", "b", "c"])])
      (decodeDigits (radices [("foo", ["1", "2"]), ("bar", ["a", "b", "c"])]) 5) = 5 :=
  ((c1_decode_bijection [("foo", ["1", "2"]), ("bar", ["a", "b", "c"])]
    (by decide)).2.2.1 5 (by decide)).2

theorem kahnAux_ok_sound :
    ∀ (fuel : Nat) (done : List Nat) (rem : DepGraph) (tiers : List (List Nat)),
      kahnAux done fuel rem = Except.ok tiers →
      ∀ n ds, (n, ds) ∈ rem →
        ∃ k, k < tiers.length ∧ n ∈ tiers.getD k [] ∧
          ∀ d ∈ ds, d ∈ done ∨ ∃ j, j < k ∧ d ∈ tiers.getD j [] := by
  intro fuel
  induction fuel with
  | zero =>
    intro done rem tiers h n ds hmem
    rw [kahnAux] at h
    by_cases hre : rem.isEmpty
    · rw [List.isEmpty_iff] at hre
      subst hre
      cases hmem
    · rw [if_neg hre] at h
      exact absurd h (by simp)
  | succ fuel ih =>
    intro done rem tiers h n ds hmem
    rw [kahnAux] at h
    by_cases hre : rem.isEmpty
    · rw [List.isEmpty_iff] at hre
      subst hre
      cases hmem
    · rw [if_neg hre] at h
      by_cases hstuck : (rem.filter (ready done)).isEmpty
      · rw [if_pos hstuck] at h
        exact absurd h (by simp)
      · rw [if_neg hstuck] at h
        cases hrec : kahnAux (done ++ (rem.filter (ready done)).map Prod.fst) fuel
            (rem.filter (fun p => !ready done p)) with
        | error m =>
          rw [hrec] at h
          exact absurd h (by simp)
        | ok tiers' =>
          rw [hrec] at h
          have htiers : tiers = (rem.filter (ready done)).map Prod.fst :: tiers' := by
            injection h with h'
            exact h'.symm
          subst htiers
          by_cases hr : ready done (n, ds)
          · refine ⟨0, Nat.succ_pos _, ?_, ?_⟩
            · rw [List.getD_cons_zero]
              exact List.mem_map_of_mem Prod.fst (List.mem_filter.mpr ⟨hmem, hr⟩)
            · intro d hd
              left
              have hall := hr
              rw [ready, List.all_eq_true] at hall
              have := hall d hd
              simpa using this
          · have hrest : (n, ds) ∈ rem.filter (fun p => !ready done p) :=
              List.mem_filter.mpr ⟨hmem, by simp [hr]⟩
            obtain ⟨k, hk, hmemk, hdeps⟩ := ih _ _ _ hrec n ds hrest
            refine ⟨k + 1, by simpa using Nat.succ_lt_succ hk, ?_, ?_⟩
            · rw [List.getD_cons_succ]
              exact hmemk
            · intro d hd
              rcases hdeps d hd with hdone | ⟨j, hj, hmemj⟩
              · rcases List.mem_append.mp hdone with h1 | h1
                · exact Or.inl h1
                · exact Or.inr ⟨0, Nat.succ_pos _, by rw [List.getD_cons_zero]; exact h1⟩
              · exact Or.inr ⟨j + 1, Nat.succ_lt_succ hj, by rw [List.getD_cons_succ]; exact hmemj⟩

theorem kahnAux_ok_perm :
    ∀ (fuel : Nat) (done : List Nat) (rem : DepGraph) (tiers : List (List Nat)),
      kahnAux done fuel rem = Except.ok tiers →
      tiers.flatten.Perm (depKeys rem) := by
  intro fuel
  induction fuel with
  | zero =>
    intro done rem tiers h
    rw [kahnAux] at h
    by_cases hre : rem.isEmpty
    · rw [List.isEmpty_iff] at hre
      subst hre
      simp at h
      subst h
      exact List.Perm.refl _
    · rw [if_neg hre] at h
      exact absurd h (by simp)
  | succ fuel ih =>
    intro done rem tiers h
    rw [kahnAux] at h
    by_cases hre : rem.isEmpty
    · rw [List.isEmpty_iff] at hre
      subst hre
      simp at h
      subst h
      exact List.Perm.refl _
    · rw [if_neg hre] at h
      by_cases hstuck : (rem.filter (ready done)).isEmpty
      · rw [if_pos hstuck] at h
        exact absurd h (by simp)
      · rw [if_neg hstuck] at h
        cases hrec : kahnAux (done ++ (rem.filter (ready done)).map Prod.fst) fuel
            (rem.filter (fun p => !ready done p)) with
        | error m =>
          rw [hrec] at h
          exact absurd h (by simp)
        | ok tiers' =>
          rw [hrec] at h
          have htiers : tiers = (rem.filter (ready done)).map Prod.fst :: tiers' := by
            injection h with h'
            exact h'.symm
          subst htiers
          have hperm := ih _ _ _ hrec
          have h1 : (((rem.filter (ready done)).map Prod.fst :: tiers').flatten)
              = (rem.filter (ready done)).map Prod.fst ++ tiers'.flatten := rfl
          rw [h1]
          have h2 : List.Perm
              ((rem.filter (ready done)).map Prod.fst ++ tiers'.flatten)
              ((rem.filter (ready done)).map Prod.fst ++
                depKeys (rem.filter (fun p => !ready done p))) :=
            List.Perm.append_left _ hperm
          refine List.Perm.trans h2 ?_
          have h3 : (rem.filter (ready done)).map Prod.fst ++
                depKeys (rem.filter (fun p => !ready done p))
              = ((rem.filter (ready done)) ++
                  rem.filter (fun p => !ready done p)).map Prod.fst := by
            rw [List.map_append]
            rfl
          rw [h3]
          exact (List.filter_append_perm _ _).map _

theorem step_of_stuck (g : DepGraph) (done : List Nat) (rem : DepGraph)
    (hsub : ∀ p ∈ rem, p ∈ g)
    (hstuck : (rem.filter (ready done)).isEmpty)
    (hcl : Closed g)
    (hcover : ∀ x ∈ depKeys g, x ∈ done ∨ x ∈ depKeys rem) :
    ∀ n ∈ depKeys rem,
      stepNext done rem n ∈ depKeys rem ∧ Edge g n (stepNext done rem n) := by
  intro n hn
  have hex : ∃ p ∈ rem, (p.1 == n) = true := by
    rcases List.mem_map.mp hn with ⟨p, hp, rfl⟩
    exact ⟨p, hp, by simp⟩
  have hsome : (rem.find? (fun p => p.1 == n)).isSome := List.find?_isSome.mpr hex
  obtain ⟨q, hq⟩ := Option.isSome_iff_exists.mp hsome
  have hqmem : q ∈ rem := List.mem_of_find?_eq_some hq
  have hqfst : q.1 = n := by
    have := List.find?_some hq
    simpa using this
  have hnr : ready done q = false := by
    by_contra hcon
    have hq2 : q ∈ rem.filter (ready done) :=
      List.mem_filter.mpr ⟨hqmem, by simpa using hcon⟩
    rw [List.isEmpty_iff] at hstuck
    rw [hstuck] at hq2
    cases hq2
  have hexd : ∃ d ∈ q.2, (!done.contains d) = true := by
    rw [ready, List.all_eq_false] at hnr
    rcases hnr with ⟨d, hd, hpd⟩
    exact ⟨d, hd, by simpa using hpd⟩
  have hdsome : (q.2.find? (fun d => !done.contains d)).isSome :=
    List.find?_isSome.mpr hexd
  obtain ⟨d, hd⟩ := Option.isSome_iff_exists.mp hdsome
  have hdmem : d ∈ q.2 := List.mem_of_find?_eq_some hd
  have hdnotdone : d ∉ done := by
    have := List.find?_some hd
    simp at this
    exact this
  have hstep : stepNext done rem n = d := by
    rw [stepNext, hq]
    show (q.2.find? (fun d => !done.contains d)).getD n = d
    rw [hd]
    rfl
  have hdg : d ∈ depKeys g := hcl q (hsub q hqmem) d hdmem
  have hdrem : d ∈ depKeys rem := by
    rcases hcover d hdg with h1 | h1
    · exact absurd h1 hdnotdone
    · exact h1
  refine ⟨hstep ▸ hdrem, ?_⟩
  rw [hstep]
  refine ⟨q.2, ?_, hdmem⟩
  rw [← hqfst]
  exact hsub q hqmem

theorem iterate_periodic_of_mapsTo (f : Nat → Nat) (S : List Nat)
    (hf : ∀ n ∈ S, f n ∈ S) (x : Nat) (hx : x ∈ S) :
    ∃ p, 1 ≤ p ∧ f^[p] (f^[S.length] x) = f^[S.length] x := by
  have hiter : ∀ j, f^[j] x ∈ S := by
    intro j
    induction j with
    | zero => simpa using hx
    | succ j ihj =>
      rw [Function.iterate_succ_apply']
      exact hf _ ihj
  have hmaps : ∀ j ∈ Finset.range (S.length + 1), f^[j] x ∈ S.toFinset := by
    intro j _
    exact List.mem_toFinset.mpr (hiter j)
  have hcard : S.toFinset.card < (Finset.range (S.length + 1)).card := by
    rw [Finset.card_range]
    exact Nat.lt_succ_of_le (List.toFinset_card_le S)
  obtain ⟨a, ha, b, hb, hab, heq⟩ :=
    Finset.exists_ne_map_eq_of_card_lt_of_maps_to hcard hmaps
  have key : ∀ i j, i < j → j ≤ S.length → f^[i] x = f^[j] x →
      ∃ p, 1 ≤ p ∧ f^[p] (f^[S.length] x) = f^[S.length] x := by
    intro i j hij hjle heq2
    refine ⟨j - i, by omega, ?_⟩
    have h1 : f^[S.length + (j - i)] x = f^[S.length] x := by
      have e1 : S.length + (j - i) = (S.length - i) + j := by omega
      rw [e1, Function.iterate_add_apply, ← heq2, ← Function.iterate_add_apply]
      congr 1
      omega
    rw [← Function.iterate_add_apply, Nat.add_comm]
    exact h1
  rcases Nat.lt_or_ge a b with hlt | hge
  · exact key a b hlt (Nat.lt_succ_iff.mp (Finset.mem_range.mp hb)) heq
  · have hlt2 : b < a := by omega
    exact key b a hlt2 (Nat.lt_succ_iff.mp (Finset.mem_range.mp ha)) heq.symm

theorem reaches_iterate (g : DepGraph) (f : Nat → Nat) (S : List Nat)
    (hf : ∀ n ∈ S, f n ∈ S ∧ Edge g n (f n)) :
    ∀ (p : Nat), 1 ≤ p → ∀ z ∈ S, Reaches g z (f^[p] z) := by
  intro p
  induction p with
  | zero => intro h; omega
  | succ p ihp =>
    intro _ z hz
    rcases Nat.eq_zero_or_pos p with h0 | hpos
    · subst h0
      have e1 : f^[1] z = f z := by simp
      rw [e1]
      exact Reaches.single (hf z hz).2
    · rw [Function.iterate_succ_apply]
      exact Reaches.cons (hf z hz).2 (ihp hpos (f z) (hf z hz).1)

theorem stuck_cycleWitness (g : DepGraph) (done : List Nat) (rem : DepGraph)
    (hne : rem ≠ [])
    (hsub : ∀ p ∈ rem, p ∈ g)
    (hstuck : (rem.filter (ready done)).isEmpty)
    (hcl : Closed g)
    (hcover : ∀ x ∈ depKeys g, x ∈ done ∨ x ∈ depKeys rem) :
    Reaches g (cycleWitness done rem) (cycleWitness done rem) := by
  obtain ⟨q0, rem', rfl⟩ : ∃ q0 rem', rem = q0 :: rem' := by
    cases rem with
    | nil => exact absurd rfl hne
    | cons q0 rem' => exact ⟨q0, rem', rfl⟩
  have hfS := step_of_stuck g done (q0 :: rem') hsub hstuck hcl hcover
  have hx : q0.1 ∈ depKeys (q0 :: rem') := by
    rw [depKeys]
    exact List.mem_map_of_mem Prod.fst (List.mem_cons_self q0 rem')
  have hlen : (depKeys (q0 :: rem')).length = (q0 :: rem').length := by
    rw [depKeys, List.length_map]
  obtain ⟨p, hp1, hpfix⟩ := iterate_periodic_of_mapsTo (stepNext done (q0 :: rem'))
    (depKeys (q0 :: rem')) (fun n hn => (hfS n hn).1) q0.1 hx
  have hiterS : ∀ j, (stepNext done (q0 :: rem'))^[j] q0.1 ∈ depKeys (q0 :: rem') := by
    intro j
    induction j with
    | zero => simpa using hx
    | succ j ihj =>
      rw [Function.iterate_succ_apply']
      exact (hfS _ ihj).1
  have hreach := reaches_iterate g (stepNext done (q0 :: rem')) (depKeys (q0 :: rem'))
    hfS p hp1 ((stepNext done (q0 :: rem'))^[(depKeys (q0 :: rem')).length] q0.1)
    (hiterS _)
  rw [hpfix] at hreach
  have hcw : cycleWitness done (q0 :: rem')
      = (stepNext done (q0 :: rem'))^[(q0 :: rem').length] q0.1 := rfl
  rw [hcw, ← hlen]
  exact hreach

theorem kahnAux_error_cycle (g : DepGraph) (hcl : Closed g) :
    ∀ (fuel : Nat) (done : List Nat) (rem : DepGraph) (e : Nat),
      (∀ p ∈ rem, p ∈ g) →
      (∀ x ∈ depKeys g, x ∈ done ∨ x ∈ depKeys rem) →
      rem.length ≤ fuel →
      kahnAux done fuel rem = Except.error e →
      Reaches g e e := by
  intro fuel
  induction fuel with
  | zero =>
    intro done rem e hsub hcover hlen h
    have hre : rem = [] := List.length_eq_zero.mp (Nat.le_zero.mp hlen)
    subst hre
    rw [kahnAux] at h
    simp at h
  | succ fuel ih =>
    intro done rem e hsub hcover hlen h
    rw [kahnAux] at h
    by_cases hre : rem.isEmpty
    · rw [if_pos hre] at h
      exact absurd h (by simp)
    · rw [if_neg hre] at h
      by_cases hstuck : (rem.filter (ready done)).isEmpty
      · rw [if_pos hstuck] at h
        have he : cycleWitness done rem = e := by
          injection h
        rw [← he]
        have hne : rem ≠ [] := by
          intro hemp
          rw [hemp] at hre
          exact hre rfl
        exact stuck_cycleWitness g done rem hne hsub hstuck hcl hcover
      · rw [if_neg hstuck] at h
        cases hrec : kahnAux (done ++ (rem.filter (ready done)).map Prod.fst) fuel
            (rem.filter (fun p => !ready done p)) with
        | ok tiers' =>
          rw [hrec] at h
          exact absurd h (by simp)
        | error m =>
          rw [hrec] at h
          have hme : m = e := by injection h
          subst hme
          have hrdy : 0 < (rem.filter (ready done)).length := by
            apply List.length_pos.mpr
            intro hemp
            rw [hemp] at hstuck
            exact hstuck rfl
          have hsplit : (rem.filter (ready done)).length +
              (rem.filter (fun p => !ready done p)).length = rem.length := by
            have hp := (List.filter_append_perm (ready done) rem).length_eq
            rw [List.length_append] at hp
            exact hp
          apply ih (done ++ (rem.filter (ready done)).map Prod.fst)
            (rem.filter (fun p => !ready done p)) m
          · intro p hp
            exact hsub p (List.mem_of_mem_filter hp)
          · intro x hx
            rcases hcover x hx with h1 | h1
            · exact Or.inl (List.mem_append.mpr (Or.inl h1))
            · rcases List.mem_map.mp h1 with ⟨p, hp, rfl⟩
              by_cases hrp : ready done p
              · exact Or.inl (List.mem_append.mpr (Or.inr
                  (List.mem_map_of_mem Prod.fst (List.mem_filter.mpr ⟨hp, hrp⟩))))
              · exact Or.inr (List.mem_map_of_mem Prod.fst
                  (List.mem_filter.mpr ⟨hp, by simp [hrp]⟩))
          · omega
          · exact hrec

/-- Claim C9 (spec-modelled): for every dependency graph with unique node
names whose dependencies all refer to registered nodes, if the graph contains
a cycle then `validate` fails with a `CycleError` whose reported node lies on
a cycle, and never returns a tiering. -/
theorem c9_validate_cycle (g : DepGraph) (hnd : (depKeys g).Nodup)
    (hcl : Closed g) (hcyc : HasCycle g) :
    ∃ e, validate g = Except.error e ∧ Reaches g e e := by
  cases hv : validate g with
  | error e =>
    exact ⟨e, rfl, kahnAux_error_cycle g hcl g.length [] g e (fun p hp => hp)
      (fun x hx => Or.inr hx) (Nat.le_refl _) hv⟩
  | ok tiers =>
    exfalso
    obtain ⟨n, hr⟩ := hcyc
    have hsound := kahnAux_ok_sound g.length [] g tiers hv
    have hperm := kahnAux_ok_perm g.length [] g tiers hv
    have hflat : tiers.flatten.Nodup := hperm.symm.nodup hnd
    have hpw : List.Pairwise List.Disjoint tiers := (List.nodup_flatten.mp hflat).2
    have huniq : ∀ (a k j : Nat), k < tiers.length → j < tiers.length →
        a ∈ tiers.getD k [] → a ∈ tiers.getD j [] → k = j := by
      intro a k j hk hj hmk hmj
      by_contra hne
      rw [List.getD_eq_get _ _ hk] at hmk
      rw [List.getD_eq_get _ _ hj] at hmj
      rcases Nat.lt_or_ge k j with hlt | hge
      · exact List.pairwise_iff_get.mp hpw ⟨k, hk⟩ ⟨j, hj⟩ hlt hmk hmj
      · have hlt2 : j < k := by omega
        exact List.pairwise_iff_get.mp hpw ⟨j, hj⟩ ⟨k, hk⟩ hlt2 hmj hmk
    have hedge : ∀ a b, Edge g a b → ∀ ka, ka < tiers.length →
        a ∈ tiers.getD ka [] →
        ∃ kb, kb < ka ∧ kb < tiers.length ∧ b ∈ tiers.getD kb [] := by
      intro a b hab ka hka hmem
      obtain ⟨ds, hads, hbds⟩ := hab
      obtain ⟨k, hk, hmemk, hdeps⟩ := hsound a ds hads
      have hkka : k = ka := huniq a k ka hk hka hmemk hmem
      rcases hdeps b hbds with hdone | ⟨j, hj, hmemj⟩
      · cases hdone
      · exact ⟨j, by omega, by omega, hmemj⟩
    have hreach : ∀ a b, Reaches g a b → ∀ ka, ka < tiers.length →
        a ∈ tiers.getD ka [] →
        ∃ kb, kb < ka ∧ kb < tiers.length ∧ b ∈ tiers.getD kb [] := by
      intro a b hab
      induction hab with
      | single he => exact fun ka hka hm => hedge _ _ he ka hka hm
      | cons he htl ihr =>
        intro ka hka hm
        obtain ⟨kc, hkc1, hkc2, hmc⟩ := hedge _ _ he ka hka hm
        obtain ⟨kb, hkb1, hkb2, hmb⟩ := ihr kc hkc2 hmc
        exact ⟨kb, by omega, hkb2, hmb⟩
    have hn_entry : ∃ ds, (n, ds) ∈ g := by
      cases hr with
      | single he =>
        obtain ⟨ds, h1, _⟩ := he
        exact ⟨ds, h1⟩
      | cons he htl =>
        obtain ⟨ds, h1, _⟩ := he
        exact ⟨ds, h1⟩
    obtain ⟨ds, hds⟩ := hn_entry
    obtain ⟨k, hk, hmemk, _⟩ := hsound n ds hds
    obtain ⟨k2, hk2lt, hk2len, hmem2⟩ := hreach n n hr k hk hmemk
    have hk2k : k2 = k := huniq n k2 k hk2len hk hmem2 hmemk
    omega

/-- Witness for C9: on the two-node cycle `1 → 2 → 1`, `validate` reports a
node on the cycle and returns no tiering. -/
theorem c9_validate_cycle_witness :
    (depKeys [(1, [2]), (2, [1])]).Nodup ∧
    (∀ p ∈ ([(1, [2]), (2, [1])] : DepGraph), ∀ d ∈ p.2,
      d ∈ depKeys [(1, [2]), (2, [1])]) ∧
    ∃ e, validate [(1, [2]), (2, [1])] = Except.error e ∧
      Reaches [(1, [2]), (2, [1])] e e :=
  ⟨by decide, by decide,
    c9_validate_cycle [(1, [2]), (2, [1])] (by decide)
      (by decide : ∀ p ∈ ([(1, [2]), (2, [1])] : DepGraph), ∀ d ∈ p.2,
        d ∈ depKeys [(1, [2]), (2, [1])])
      ⟨1, Reaches.cons
        (show Edge [(1, [2]), (2, [1])] 1 2 from ⟨[2], by decide, by decide⟩)
        (Reaches.single
          (show Edge [(1, [2]), (2, [1])] 2 1 from ⟨[1], by decide, by decide⟩))⟩⟩
